import Mathlib

/-!
Verification development for the chess engine in `chess_engine.py`.

The core under verification is the static evaluator (`evaluate_board`),
the depth-limited alpha-beta searcher (`alphabeta`) and the move-selection
entry point (`select_move`).  The game-rules engine (the `chess` library)
is an external collaborator: it is embedded here as an abstract interface
(`Rules`) carrying the documented collaborator contracts, together with a
concrete instantiation (`chessRules`) built from a model of the rules of
chess, used to witness the theorems on concrete positions.
-/

/-- Scores as the searcher sees them: the evaluator produces plain Python
integers, while `alphabeta` seeds and threads `-math.inf` / `math.inf`
bounds, so the searcher's value domain is the integers extended with both
infinities (`⊥` for `-math.inf`, `⊤` for `math.inf`). -/
abbrev XInt : Type := WithBot (WithTop ℤ)

/-- Embeds an ordinary integer score into the searcher's value domain. -/
def XInt.ofInt (n : ℤ) : XInt := ((n : WithTop ℤ) : XInt)

/-- The six chess piece types (`chess.PAWN` … `chess.KING`). -/
inductive PieceType : Type
  | pawn | knight | bishop | rook | queen | king
deriving DecidableEq, Repr

/-- `PIECE_VALUES` from `chess_engine.py` (basic material values). -/
def PIECE_VALUES : PieceType → ℤ
  | .pawn => 100
  | .knight => 320
  | .bishop => 330
  | .rook => 500
  | .queen => 900
  | .king => 20000

/-- Iteration order of the `for piece_type in PIECE_VALUES` loop in
`evaluate_board` (Python dict insertion order). -/
def PIECE_ORDER : List PieceType :=
  [.pawn, .knight, .bishop, .rook, .queen, .king]

/-- `PST` from `chess_engine.py`: the per-piece 64-entry piece-square
tables, indexed by square number (A1 = 0 … H8 = 63). -/
def PST : PieceType → List ℤ
  | .pawn =>
      [ 0,  0,  0,   0,   0,  0,  0,  0,
        5, 10, 10, -20, -20, 10, 10,  5,
        5, -5, -10,  0,   0, -10, -5,  5,
        0,  0,   0,  20,  20,   0,  0,  0,
        5,  5,  10,  25,  25,  10,  5,  5,
       10, 10,  20,  30,  30,  20, 10, 10,
       50, 50, 50,  50,  50,  50, 50, 50,
        0,  0,   0,   0,   0,   0,  0,  0]
  | .knight =>
      [-50,-40,-30,-30,-30,-30,-40,-50,
       -40,-20,  0,  5,  5,  0,-20,-40,
       -30,  5, 10, 15, 15, 10,  5,-30,
       -30,  0, 15, 20, 20, 15,  0,-30,
       -30,  5, 15, 20, 20, 15,  5,-30,
       -30,  0, 10, 15, 15, 10,  0,-30,
       -40,-20,  0,  0,  0,  0,-20,-40,
       -50,-90,-30,-30,-30,-30,-90,-50]
  | .bishop =>
      [-20,-10,-10,-10,-10,-10,-10,-20,
       -10,  5,  0,  0,  0,  0,  5,-10,
       -10, 10, 10, 10, 10, 10, 10,-10,
       -10,  0, 10, 10, 10, 10,  0,-10,
       -10,  5,  5, 10, 10,  5,  5,-10,
       -10,  0,  5, 10, 10,  5,  0,-10,
       -10,  0,  0,  0,  0,  0,  0,-10,
       -20,-10,-10,-10,-10,-10,-10,-20]
  | .rook =>
      [ 0,  0,  5, 10, 10,  5,  0,  0,
        0,  0,  5, 10, 10,  5,  0,  0,
        0,  0,  5, 10, 10,  5,  0,  0,
        0,  0,  5, 10, 10,  5,  0,  0,
        0,  0,  5, 10, 10,  5,  0,  0,
        0,  0,  5, 10, 10,  5,  0,  0,
       25, 25, 25, 25, 25, 25, 25, 25,
        0,  0,  5, 10, 10,  5,  0,  0]
  | .queen =>
      [-20,-10,-10, -5, -5,-10,-10,-20,
       -10,  0,  5,  0,  0,  0,  0,-10,
       -10,  5,  5,  5,  5,  5,  0,-10,
        -5,  0,  5,  5,  5,  5,  0, -5,
         0,  0,  5,  5,  5,  5,  0, -5,
       -10,  0,  5,  5,  5,  5,  0,-10,
       -10,  0,  0,  0,  0,  0,  0,-10,
       -20,-10,-10, -5, -5,-10,-10,-20]
  | .king =>
      [-30,-40,-40,-50,-50,-40,-40,-30,
       -30,-40,-40,-50,-50,-40,-40,-30,
       -30,-40,-40,-50,-50,-40,-40,-30,
       -30,-40,-40,-50,-50,-40,-40,-30,
       -20,-30,-30,-40,-40,-30,-30,-20,
       -10,-20,-20,-20,-20,-20,-20,-10,
        20, 20,  0,  0,  0,  0, 20, 20,
        20, 30, 10,  0,  0, 10, 30, 20]

/-- `chess.square_mirror`: vertical mirror of a square index. -/
def square_mirror (sq : Nat) : Nat := sq ^^^ 56

/-- Modelled from the spec: the capability set the core consumes from the
external rules engine (`chess` library), which is not part of this
repository.  Operational fields follow section 6 of the spec (legal-move
enumeration, capture test, apply/undo in LIFO discipline, terminal
queries, occupancy queries, turn override for mobility counting); the
`Prop` fields are the documented collaborator contracts (LIFO undo
restores the prior state; checkmate and stalemate are terminal, mutually
exclusive, and a non-terminal position has at least one legal move). -/
structure Rules (P M : Type) where
  legal_moves : P → List M
  is_capture : P → M → Bool
  push : P → M → P
  pop : P → P
  turn : P → Bool
  is_checkmate : P → Bool
  is_stalemate : P → Bool
  is_game_over : P → Bool
  pieces : PieceType → Bool → P → List Nat
  set_turn : P → Bool → P
  pop_push : ∀ b m, pop (push b m) = b
  mate_over : ∀ b, is_checkmate b = true → is_game_over b = true
  stale_over : ∀ b, is_stalemate b = true → is_game_over b = true
  stale_not_mate : ∀ b, is_stalemate b = true → is_checkmate b = false
  not_over_moves : ∀ b, is_game_over b = false → legal_moves b ≠ []

variable {P M : Type}

/-- The material + piece-square accumulation loop of `evaluate_board`
(lines 93–102): for each piece type, add value and table entry for every
white piece, subtract value and mirrored table entry for every black
piece.  Returns the `(material, pst_score)` pair. -/
def evalTables (R : Rules P M) (b : P) : ℤ × ℤ :=
  PIECE_ORDER.foldl
    (fun acc pt =>
      let acc := (R.pieces pt true b).foldl
        (fun a sq => (a.1 + PIECE_VALUES pt, a.2 + (PST pt).getD sq 0)) acc
      (R.pieces pt false b).foldl
        (fun a sq =>
          (a.1 - PIECE_VALUES pt, a.2 - (PST pt).getD (square_mirror sq) 0))
        acc)
    (0, 0)

/-- The fall-through branch of `evaluate_board` (lines 93–117): the full
material + piece-square + mobility sum.  The two mobility counts are
taken on a copy whose turn flag is forced to White and then to Black, as
the source does. -/
def evaluate_sum (R : Rules P M) (b : P) : ℤ :=
  let mp := evalTables R b
  let board_copy := R.set_turn b true
  let white_moves := (R.legal_moves board_copy).length
  let board_copy := R.set_turn board_copy false
  let black_moves := (R.legal_moves board_copy).length
  let mobility_score : ℤ := ((white_moves : ℤ) - (black_moves : ℤ)) * 10
  mp.1 + mp.2 + mobility_score

/-- `evaluate_board` from `chess_engine.py`.  The second component is the
state of the `board` argument when the call returns: the source only ever
reads `board` (its transient turn-flipping happens on `board.copy()`), so
the input position passes through unchanged on every branch. -/
def evaluate_board (R : Rules P M) (b : P) : ℤ × P :=
  if R.is_checkmate b then ((if R.turn b then -999999 else 999999), b)
  else if R.is_stalemate b then (0, b)
  else (evaluate_sum R b, b)

/-- The sort key of `moves.sort(key=lambda m: 0 if board.is_capture(m) else 1)`. -/
def captureKey (R : Rules P M) (b : P) (m : M) : Nat :=
  if R.is_capture b m then 0 else 1

/-- Stable insertion step: place `m` before the first element whose key is
strictly greater, after all elements with a key less than or equal to its
own. -/
def insertByKey (R : Rules P M) (b : P) (m : M) : List M → List M
  | [] => [m]
  | x :: xs =>
      if captureKey R b m ≤ captureKey R b x then m :: x :: xs
      else x :: insertByKey R b m xs

/-- Behavioural model of `moves.sort(key=lambda m: 0 if board.is_capture(m) else 1)`
(line 127): Python's sort is stable, and a stable sort by a fixed key is
extensionally the stable insertion sort by that key. -/
def orderMoves (R : Rules P M) (b : P) : List M → List M
  | [] => []
  | m :: ms => insertByKey R b m (orderMoves R b ms)

/-- The maximizing move loop of `alphabeta` (lines 129–141), with the
mutable `board` threaded explicitly: each iteration pushes the move,
searches the child via `search` (the depth-one-less recursion), pops, and
then updates the running best, `alpha`, and checks the `beta <= alpha`
cutoff.  Returns `(max_eval, best_move, board)`. -/
def abMax (R : Rules P M) (search : P → XInt → XInt → XInt × Option M × P) :
    P → List M → XInt → XInt → XInt → Option M → XInt × Option M × P
  | b, [], _, _, best, bm => (best, bm, b)
  | b, m :: rest, alpha, beta, best, bm =>
      let r := search (R.push b m) alpha beta
      let b2 := R.pop r.2.2
      let s := r.1
      let best2 := if best < s then s else best
      let bm2 := if best < s then some m else bm
      let alpha2 := max alpha s
      if beta ≤ alpha2 then (best2, bm2, b2)
      else abMax R search b2 rest alpha2 beta best2 bm2

/-- The minimizing move loop of `alphabeta` (lines 142–154), mirror image
of `abMax`.  Returns `(min_eval, best_move, board)`. -/
def abMin (R : Rules P M) (search : P → XInt → XInt → XInt × Option M × P) :
    P → List M → XInt → XInt → XInt → Option M → XInt × Option M × P
  | b, [], _, _, best, bm => (best, bm, b)
  | b, m :: rest, alpha, beta, best, bm =>
      let r := search (R.push b m) alpha beta
      let b2 := R.pop r.2.2
      let s := r.1
      let best2 := if s < best then s else best
      let bm2 := if s < best then some m else bm
      let beta2 := min beta s
      if beta2 ≤ alpha then (best2, bm2, b2)
      else abMin R search b2 rest alpha beta2 best2 bm2

/-- `alphabeta` from `chess_engine.py` (lines 120–154): depth-limited
minimax with alpha-beta pruning and capture-first move ordering.  The
result triple is `(score, best_move, board-after-the-call)`; the last
component makes the source's in-place push/pop discipline observable. -/
def alphabeta (R : Rules P M) : Nat → P → XInt → XInt → Bool → XInt × Option M × P
  | 0, b, _, _, _ => (XInt.ofInt (evaluate_board R b).1, none, b)
  | d + 1, b, alpha, beta, maximizing =>
      if R.is_game_over b then (XInt.ofInt (evaluate_board R b).1, none, b)
      else
        let moves := orderMoves R b (R.legal_moves b)
        if maximizing then
          abMax R (fun p a t => alphabeta R d p a t false) b moves alpha beta ⊥ none
        else
          abMin R (fun p a t => alphabeta R d p a t true) b moves alpha beta ⊤ none

/-- `select_move` from `chess_engine.py` (lines 156–159): seeds the full
window and sets `maximizing` iff the side to move is White.  Note the
source performs no validation of `depth` whatsoever. -/
def select_move (R : Rules P M) (b : P) (depth : Nat) : Option M × XInt :=
  let r := alphabeta R depth b ⊥ ⊤ (R.turn b)
  (r.2.1, r.1)

/-- Modelled from the spec: the exhaustive, unpruned minimax of the same
depth, same leaf evaluation and same move ordering, used as the reference
for the pruning-correctness claim.  This is the one definition written
from the spec's words rather than from the source. -/
def minimax (R : Rules P M) : Nat → P → Bool → XInt
  | 0, b, _ => XInt.ofInt (evaluate_board R b).1
  | d + 1, b, mx =>
      if R.is_game_over b then XInt.ofInt (evaluate_board R b).1
      else
        let moves := orderMoves R b (R.legal_moves b)
        if mx then
          moves.foldl (fun acc m => max acc (minimax R d (R.push b m) false)) ⊥
        else
          moves.foldl (fun acc m => min acc (minimax R d (R.push b m) true)) ⊤

/-!
### A concrete rules engine

Modelled from the spec: the repository's rules engine is the external
`chess` library, which is not part of the sources.  The model below
implements the capability set of section 6 of the spec over the standard
rules of chess (legal-move enumeration with check filtering, captures
including en passant, castling, promotion, terminal detection by
checkmate / stalemate / insufficient material / the seventy-five-move
clock; draw-by-repetition detection is omitted, no position used below
depends on it).  Squares are numbered as in the library: A1 = 0, H8 = 63.
-/

/-- A piece: type and colour (`white = true`). -/
structure CPiece where
  pt : PieceType
  white : Bool
deriving DecidableEq, Repr

/-- A board state: 64 squares, side to move, castling rights, en-passant
target square, and the halfmove clock. -/
structure BoardState where
  squares : List (Option CPiece)
  turn : Bool
  castleWK : Bool
  castleWQ : Bool
  castleBK : Bool
  castleBQ : Bool
  ep : Option Nat
  halfmove : Nat
deriving DecidableEq, Repr

/-- A move: source square, destination square, optional promotion. -/
structure CMove where
  src : Nat
  dst : Nat
  promo : Option PieceType
deriving DecidableEq, Repr

/-- A position as the searcher sees it: the current state plus the stack
of previous states, restored one level by `pop` (the library's
`board.push` / `board.pop`). -/
structure CPos where
  cur : BoardState
  hist : List BoardState
deriving DecidableEq, Repr

def sqAt (st : BoardState) (sq : Nat) : Option CPiece := st.squares.getD sq none

def fileOf (sq : Nat) : Int := ((sq % 8 : Nat) : Int)

def rankOf (sq : Nat) : Int := ((sq / 8 : Nat) : Int)

def onBoard (f r : Int) : Bool := 0 ≤ f && f < 8 && 0 ≤ r && r < 8

def mkSq (f r : Int) : Nat := (r * 8 + f).toNat

def sgn (i : Int) : Int := if 0 < i then 1 else if i < 0 then -1 else 0

/-- All squares strictly between `s` and `t` on their common line are empty. -/
def pathClear (st : BoardState) (s t : Nat) : Bool :=
  let df := fileOf t - fileOf s
  let dr := rankOf t - rankOf s
  let steps := max df.natAbs dr.natAbs
  (List.range (steps - 1)).all fun k =>
    let f := fileOf s + sgn df * ((k : Int) + 1)
    let r := rankOf s + sgn dr * ((k : Int) + 1)
    (sqAt st (mkSq f r)).isNone

/-- Does the piece `p` sitting on `s` attack square `t`? -/
def pieceAttacksFrom (st : BoardState) (p : CPiece) (s t : Nat) : Bool :=
  if s == t then false else
  let df := fileOf t - fileOf s
  let dr := rankOf t - rankOf s
  match p.pt with
  | .pawn => (if p.white then dr == 1 else dr == -1) && df.natAbs == 1
  | .knight => (df.natAbs == 1 && dr.natAbs == 2) || (df.natAbs == 2 && dr.natAbs == 1)
  | .king => df.natAbs ≤ 1 && dr.natAbs ≤ 1
  | .bishop => df.natAbs == dr.natAbs && pathClear st s t
  | .rook => (df == 0 || dr == 0) && pathClear st s t
  | .queen => (df.natAbs == dr.natAbs || df == 0 || dr == 0) && pathClear st s t

/-- Is square `t` attacked by any piece of the given colour? -/
def isAttacked (st : BoardState) (byWhite : Bool) (t : Nat) : Bool :=
  (List.range 64).any fun s =>
    match sqAt st s with
    | some p => p.white == byWhite && pieceAttacksFrom st p s t
    | none => false

/-- Square of the given side's king (64 if absent, an off-board dummy). -/
def kingSq (st : BoardState) (white : Bool) : Nat :=
  ((List.range 64).find? fun s => sqAt st s == some ⟨.king, white⟩).getD 64

/-- The side to move is in check. -/
def inCheck (st : BoardState) : Bool :=
  isAttacked st (!st.turn) (kingSq st st.turn)

def setSq (st : BoardState) (sq : Nat) (v : Option CPiece) : BoardState :=
  { st with squares := st.squares.set sq v }

/-- Apply a move: relocate the piece (with promotion), remove an
en-passant-captured pawn, move the rook on castling, update castling
rights, the en-passant square, the halfmove clock, and flip the turn. -/
def applyMove (st : BoardState) (m : CMove) : BoardState :=
  match sqAt st m.src with
  | none => { st with turn := !st.turn }
  | some p =>
    let isPawn := p.pt == PieceType.pawn
    let isEp := isPawn && st.ep == some m.dst && fileOf m.dst != fileOf m.src
                  && (sqAt st m.dst).isNone
    let isCap := (sqAt st m.dst).isSome || isEp
    let moved : CPiece := match m.promo with | some q => ⟨q, p.white⟩ | none => p
    let st1 := setSq (setSq st m.src none) m.dst (some moved)
    let st2 := if isEp then setSq st1 (if p.white then m.dst - 8 else m.dst + 8) none
               else st1
    let st3 :=
      if p.pt == PieceType.king && (fileOf m.dst - fileOf m.src).natAbs == 2 then
        if m.dst == 6 then setSq (setSq st2 7 none) 5 (some ⟨.rook, true⟩)
        else if m.dst == 2 then setSq (setSq st2 0 none) 3 (some ⟨.rook, true⟩)
        else if m.dst == 62 then setSq (setSq st2 63 none) 61 (some ⟨.rook, false⟩)
        else if m.dst == 58 then setSq (setSq st2 56 none) 59 (some ⟨.rook, false⟩)
        else st2
      else st2
    let wk := st.castleWK && !(p.pt == PieceType.king && p.white)
                && m.src != 7 && m.dst != 7
    let wq := st.castleWQ && !(p.pt == PieceType.king && p.white)
                && m.src != 0 && m.dst != 0
    let bk := st.castleBK && !(p.pt == PieceType.king && !p.white)
                && m.src != 63 && m.dst != 63
    let bq := st.castleBQ && !(p.pt == PieceType.king && !p.white)
                && m.src != 56 && m.dst != 56
    let newEp := if isPawn && (rankOf m.dst - rankOf m.src).natAbs == 2 then
                   some ((m.src + m.dst) / 2)
                 else none
    let newHalf := if isPawn || isCap then 0 else st.halfmove + 1
    { st3 with turn := !st.turn, ep := newEp, halfmove := newHalf,
               castleWK := wk, castleWQ := wq, castleBK := bk, castleBQ := bq }

/-- Pseudo-legal pawn moves from square `s`. -/
def pawnMovesFrom (st : BoardState) (s : Nat) (white : Bool) : List CMove :=
  let dir : Int := if white then 1 else -1
  let fr := rankOf s
  let ff := fileOf s
  let promoRank : Int := if white then 7 else 0
  let startRank : Int := if white then 1 else 6
  let mkMoves : Nat → List CMove := fun dst =>
    if rankOf dst == promoRank then
      [⟨s, dst, some .queen⟩, ⟨s, dst, some .rook⟩,
       ⟨s, dst, some .bishop⟩, ⟨s, dst, some .knight⟩]
    else [⟨s, dst, none⟩]
  let fwd1 :=
    if onBoard ff (fr + dir) && (sqAt st (mkSq ff (fr + dir))).isNone then
      mkMoves (mkSq ff (fr + dir))
    else []
  let fwd2 :=
    if fr == startRank && (sqAt st (mkSq ff (fr + dir))).isNone
        && (sqAt st (mkSq ff (fr + 2 * dir))).isNone then
      [⟨s, mkSq ff (fr + 2 * dir), none⟩]
    else []
  let caps := [(-1 : Int), 1].foldr
    (fun d acc =>
      if onBoard (ff + d) (fr + dir) then
        let dst := mkSq (ff + d) (fr + dir)
        let enemy := match sqAt st dst with
          | some q => q.white != white
          | none => false
        if enemy || st.ep == some dst then mkMoves dst ++ acc else acc
      else acc)
    []
  fwd1 ++ fwd2 ++ caps

def leaperOffsets (pt : PieceType) : List (Int × Int) :=
  match pt with
  | .knight => [(1,2),(2,1),(2,-1),(1,-2),(-1,-2),(-2,-1),(-2,1),(-1,2)]
  | .king => [(1,0),(1,1),(0,1),(-1,1),(-1,0),(-1,-1),(0,-1),(1,-1)]
  | _ => []

/-- Pseudo-legal knight / king step moves from square `s`. -/
def leaperMovesFrom (st : BoardState) (s : Nat) (white : Bool) (pt : PieceType) :
    List CMove :=
  (leaperOffsets pt).foldr
    (fun d acc =>
      if onBoard (fileOf s + d.1) (rankOf s + d.2) then
        let dst := mkSq (fileOf s + d.1) (rankOf s + d.2)
        match sqAt st dst with
        | some q => if q.white == white then acc else ⟨s, dst, none⟩ :: acc
        | none => ⟨s, dst, none⟩ :: acc
      else acc)
    []

def sliderDirs (pt : PieceType) : List (Int × Int) :=
  match pt with
  | .bishop => [(1,1),(1,-1),(-1,1),(-1,-1)]
  | .rook => [(1,0),(-1,0),(0,1),(0,-1)]
  | .queen => [(1,1),(1,-1),(-1,1),(-1,-1),(1,0),(-1,0),(0,1),(0,-1)]
  | _ => []

/-- Moves along one ray: advance until a piece or the edge blocks. -/
def rayMoves (st : BoardState) (s : Nat) (white : Bool) (d : Int × Int) :
    List CMove :=
  ((List.range 7).foldl
    (fun (acc : List CMove × Bool) k =>
      if acc.2 then acc else
      let f := fileOf s + d.1 * ((k : Int) + 1)
      let r := rankOf s + d.2 * ((k : Int) + 1)
      if onBoard f r then
        let dst := mkSq f r
        match sqAt st dst with
        | none => (acc.1 ++ [⟨s, dst, none⟩], false)
        | some q =>
            if q.white == white then (acc.1, true)
            else (acc.1 ++ [⟨s, dst, none⟩], true)
      else (acc.1, true))
    ([], false)).1

/-- Pseudo-legal sliding moves from square `s`. -/
def sliderMovesFrom (st : BoardState) (s : Nat) (white : Bool) (pt : PieceType) :
    List CMove :=
  (sliderDirs pt).foldr (fun d acc => rayMoves st s white d ++ acc) []

/-- Castling moves available to the given side (rights held, path empty,
king not in or passing through check). -/
def castleMoves (st : BoardState) (white : Bool) : List CMove :=
  let enemy := !white
  let home : Nat := if white then 0 else 56
  let kingHome := home + 4
  let kOK := (if white then st.castleWK else st.castleBK)
    && (sqAt st (home + 5)).isNone && (sqAt st (home + 6)).isNone
    && sqAt st kingHome == some ⟨.king, white⟩
    && sqAt st (home + 7) == some ⟨.rook, white⟩
    && !isAttacked st enemy kingHome && !isAttacked st enemy (home + 5)
    && !isAttacked st enemy (home + 6)
  let qOK := (if white then st.castleWQ else st.castleBQ)
    && (sqAt st (home + 1)).isNone && (sqAt st (home + 2)).isNone
    && (sqAt st (home + 3)).isNone
    && sqAt st kingHome == some ⟨.king, white⟩
    && sqAt st home == some ⟨.rook, white⟩
    && !isAttacked st enemy kingHome && !isAttacked st enemy (home + 3)
    && !isAttacked st enemy (home + 2)
  (if kOK then [⟨kingHome, home + 6, none⟩] else []) ++
  (if qOK then [⟨kingHome, home + 2, none⟩] else [])

/-- All pseudo-legal moves for the side to move. -/
def pseudoMoves (st : BoardState) : List CMove :=
  ((List.range 64).foldr
    (fun s acc =>
      match sqAt st s with
      | some p =>
        if p.white == st.turn then
          (match p.pt with
           | .pawn => pawnMovesFrom st s p.white
           | .knight => leaperMovesFrom st s p.white .knight
           | .king => leaperMovesFrom st s p.white .king
           | pt => sliderMovesFrom st s p.white pt) ++ acc
        else acc
      | none => acc)
    []) ++ castleMoves st st.turn

/-- Legal moves: pseudo-legal moves that do not leave the mover's king
attacked. -/
def legalMovesState (st : BoardState) : List CMove :=
  (pseudoMoves st).filter fun m =>
    let st2 := applyMove st m
    !isAttacked st2 (!st.turn) (kingSq st2 st.turn)

/-- `board.is_capture`: destination occupied by an enemy piece, or an
en-passant capture. -/
def isCaptureState (st : BoardState) (m : CMove) : Bool :=
  (match sqAt st m.dst with
   | some q => q.white != st.turn
   | none => false)
  || ((match sqAt st m.src with
       | some p => p.pt == PieceType.pawn
       | none => false)
      && st.ep == some m.dst && fileOf m.dst != fileOf m.src)

/-- Draw by insufficient material: only kings and at most one minor piece
on the board. -/
def insufficientMaterial (st : BoardState) : Bool :=
  ((List.range 64).all fun s =>
    match sqAt st s with
    | some p => p.pt == PieceType.king || p.pt == PieceType.knight
                  || p.pt == PieceType.bishop
    | none => true)
  && decide (((List.range 64).countP fun s =>
      match sqAt st s with
      | some p => decide (p.pt = PieceType.knight ∨ p.pt = PieceType.bishop)
      | none => false) ≤ 1)

def checkmateState (st : BoardState) : Bool :=
  inCheck st && (legalMovesState st).isEmpty

def stalemateState (st : BoardState) : Bool :=
  !inCheck st && (legalMovesState st).isEmpty

/-- Terminal: checkmate, stalemate, insufficient material, or the
seventy-five-move rule. -/
def gameOverState (st : BoardState) : Bool :=
  checkmateState st || stalemateState st || insufficientMaterial st
    || decide (150 ≤ st.halfmove)

/-- The concrete rules engine: the `Rules` interface instantiated with the
chess model.  `push` records the previous state, `pop` restores it
(behaviourally the library's move-stack push/pop). -/
def chessRules : Rules CPos CMove where
  legal_moves p := legalMovesState p.cur
  is_capture p m := isCaptureState p.cur m
  push p m := ⟨applyMove p.cur m, p.cur :: p.hist⟩
  pop p := match p.hist with | [] => p | h :: t => ⟨h, t⟩
  turn p := p.cur.turn
  is_checkmate p := checkmateState p.cur
  is_stalemate p := stalemateState p.cur
  is_game_over p := gameOverState p.cur
  pieces pt white p := (List.range 64).filter fun s => sqAt p.cur s == some ⟨pt, white⟩
  set_turn p c := ⟨{ p.cur with turn := c }, p.hist⟩
  pop_push := fun b m => rfl
  mate_over := by
    intro b h
    simp only [gameOverState, h, Bool.true_or]
  stale_over := by
    intro b h
    simp only [gameOverState, h, Bool.true_or, Bool.or_true]
  stale_not_mate := by
    intro b h
    simp only [stalemateState, Bool.and_eq_true, Bool.not_eq_true'] at h
    simp only [checkmateState, h.1, Bool.false_and]
  not_over_moves := by
    intro b h hnil
    simp only [gameOverState, Bool.or_eq_false_iff] at h
    have hnil2 : legalMovesState b.cur = [] := hnil
    have hempty : (legalMovesState b.cur).isEmpty = true := by
      rw [hnil2]
      rfl
    cases hc : inCheck b.cur with
    | false =>
        have : stalemateState b.cur = true := by
          simp [stalemateState, hc, hempty]
        simp [this] at h
    | true =>
        have : checkmateState b.cur = true := by
          simp [checkmateState, hc, hempty]
        simp [this] at h

def WP : Option CPiece := some ⟨.pawn, true⟩
def WN : Option CPiece := some ⟨.knight, true⟩
def WB : Option CPiece := some ⟨.bishop, true⟩
def WR : Option CPiece := some ⟨.rook, true⟩
def WQ : Option CPiece := some ⟨.queen, true⟩
def WK : Option CPiece := some ⟨.king, true⟩
def BP : Option CPiece := some ⟨.pawn, false⟩
def BN : Option CPiece := some ⟨.knight, false⟩
def BB : Option CPiece := some ⟨.bishop, false⟩
def BR : Option CPiece := some ⟨.rook, false⟩
def BQ : Option CPiece := some ⟨.queen, false⟩
def BK : Option CPiece := some ⟨.king, false⟩
def EM : Option CPiece := none

/-- The standard starting position. -/
def startBoard : BoardState where
  squares :=
    [WR, WN, WB, WQ, WK, WB, WN, WR,
     WP, WP, WP, WP, WP, WP, WP, WP,
     EM, EM, EM, EM, EM, EM, EM, EM,
     EM, EM, EM, EM, EM, EM, EM, EM,
     EM, EM, EM, EM, EM, EM, EM, EM,
     EM, EM, EM, EM, EM, EM, EM, EM,
     BP, BP, BP, BP, BP, BP, BP, BP,
     BR, BN, BB, BQ, BK, BB, BN, BR]
  turn := true
  castleWK := true
  castleWQ := true
  castleBK := true
  castleBQ := true
  ep := none
  halfmove := 0

def startPos : CPos := ⟨startBoard, []⟩

/-- The fool's-mate position (after 1.f3 e5 2.g4 Qh4#): White to move and
checkmated. -/
def foolsMateBoard : BoardState where
  squares :=
    [WR, WN, WB, WQ, WK, WB, WN, WR,
     WP, WP, WP, WP, WP, EM, EM, WP,
     EM, EM, EM, EM, EM, WP, EM, EM,
     EM, EM, EM, EM, EM, EM, WP, BQ,
     EM, EM, EM, EM, BP, EM, EM, EM,
     EM, EM, EM, EM, EM, EM, EM, EM,
     BP, BP, BP, BP, EM, BP, BP, BP,
     BR, BN, BB, EM, BK, BB, BN, BR]
  turn := true
  castleWK := true
  castleWQ := true
  castleBK := true
  castleBQ := true
  ep := none
  halfmove := 1

def foolsMatePos : CPos := ⟨foolsMateBoard, []⟩

/-- A stalemate: White Kb6 and Qc7 against the lone black king on a8,
Black to move. -/
def staleBoard : BoardState where
  squares :=
    [EM, EM, EM, EM, EM, EM, EM, EM,
     EM, EM, EM, EM, EM, EM, EM, EM,
     EM, EM, EM, EM, EM, EM, EM, EM,
     EM, EM, EM, EM, EM, EM, EM, EM,
     EM, EM, EM, EM, EM, EM, EM, EM,
     EM, WK, EM, EM, EM, EM, EM, EM,
     EM, EM, WQ, EM, EM, EM, EM, EM,
     BK, EM, EM, EM, EM, EM, EM, EM]
  turn := false
  castleWK := false
  castleWQ := false
  castleBK := false
  castleBQ := false
  ep := none
  halfmove := 10

def stalePos : CPos := ⟨staleBoard, []⟩

/-- King versus king (Ke1 against Ke8, White to move): game over by
insufficient material, yet neither checkmate nor stalemate. -/
def kvkBoard : BoardState where
  squares :=
    [EM, EM, EM, EM, WK, EM, EM, EM,
     EM, EM, EM, EM, EM, EM, EM, EM,
     EM, EM, EM, EM, EM, EM, EM, EM,
     EM, EM, EM, EM, EM, EM, EM, EM,
     EM, EM, EM, EM, EM, EM, EM, EM,
     EM, EM, EM, EM, EM, EM, EM, EM,
     EM, EM, EM, EM, EM, EM, EM, EM,
     EM, EM, EM, EM, BK, EM, EM, EM]
  turn := true
  castleWK := false
  castleWQ := false
  castleBK := false
  castleBQ := false
  ep := none
  halfmove := 0

def kvkPos : CPos := ⟨kvkBoard, []⟩

/-!
### Order-theoretic toolkit

Small facts about `max`/`min` on the extended score domain used by the
pruning-correctness proof (the Knuth–Moore style window argument) and by
the liveness proof of the move loops.
-/

theorem if_lt_max (a b : XInt) : (if a < b then b else a) = max a b := by
  rcases le_or_lt b a with h | h
  · rw [if_neg (not_lt.mpr h), max_eq_left h]
  · rw [if_pos h, max_eq_right h.le]

theorem if_lt_min (a b : XInt) : (if a < b then a else b) = min b a := by
  rcases le_or_lt b a with h | h
  · rw [if_neg (not_lt.mpr h), min_eq_left h]
  · rw [if_pos h, min_eq_right h.le]

theorem max_transfer {x y B K : XInt} (hBK : B ≤ K) (h : max x B = max y B) :
    max x K = max y K := by
  have hK : max B K = K := max_eq_right hBK
  calc max x K = max (max x B) K := by rw [max_assoc, hK]
    _ = max (max y B) K := by rw [h]
    _ = max y K := by rw [max_assoc, hK]

theorem min_transfer {x y B K : XInt} (hKB : K ≤ B) (h : min x B = min y B) :
    min x K = min y K := by
  have hK : min B K = K := min_eq_right hKB
  calc min x K = min (min x B) K := by rw [min_assoc, hK]
    _ = min (min y B) K := by rw [h]
    _ = min y K := by rw [min_assoc, hK]

theorem clamp_comm {a b : XInt} (h : a ≤ b) (x : XInt) :
    min b (max a x) = max a (min b x) := by
  rw [max_min_distrib_left, max_eq_right h, min_comm]

theorem clamp_max_split (al be x y : XInt) :
    min be (max al (max x y))
      = max (min be (max al x)) (min be (max al y)) := by
  have h1 : max al (max x y) = max (max al x) (max al y) := by
    rw [max_max_max_comm, max_self]
  rw [h1, min_max_distrib_left]

theorem clamp_min_split (al be x y : XInt) :
    min be (max al (min x y))
      = min (min be (max al x)) (min be (max al y)) := by
  rw [max_min_distrib_left]
  have h := min_min_min_comm be be (max al x) (max al y)
  rw [min_self] at h
  exact h

theorem clamp_shift (al be best s : XInt) :
    min be (max (max al best) s)
      = max (min be (max al s)) (min be best) := by
  rw [max_assoc, max_comm best s, ← max_assoc, min_max_distrib_left]

theorem clamp_shift_dual {al be best : XInt} (h : al ≤ min be best) (x : XInt) :
    min (min be best) (max al x)
      = min (min be (max al x)) (max al best) := by
  have hb : al ≤ be := h.trans (min_le_left _ _)
  rw [clamp_comm h, min_right_comm, max_min_distrib_left, clamp_comm hb]

theorem le_max_right_of_lt {x s be : XInt} (h : be ≤ max x s) (hx : x < be) :
    be ≤ s := by
  rcases max_cases x s with ⟨he, _⟩ | ⟨he, _⟩
  · rw [he] at h
    exact absurd h (not_le.mpr hx)
  · rwa [he] at h

theorem min_le_left_of_lt {x s al : XInt} (h : min x s ≤ al) (hx : al < x) :
    s ≤ al := by
  rcases min_cases x s with ⟨he, _⟩ | ⟨he, _⟩
  · rw [he] at h
    exact absurd h (not_le.mpr hx)
  · rwa [he] at h

theorem foldl_max_init (f : M → XInt) :
    ∀ (ms : List M) (a c : XInt),
      List.foldl (fun x m => max x (f m)) (max a c) ms
        = max a (List.foldl (fun x m => max x (f m)) c ms)
  | [], _, _ => rfl
  | m :: ms, a, c => by
      simp only [List.foldl_cons]
      rw [max_assoc, foldl_max_init f ms a (max c (f m))]

theorem foldl_min_init (f : M → XInt) :
    ∀ (ms : List M) (a c : XInt),
      List.foldl (fun x m => min x (f m)) (min a c) ms
        = min a (List.foldl (fun x m => min x (f m)) c ms)
  | [], _, _ => rfl
  | m :: ms, a, c => by
      simp only [List.foldl_cons]
      rw [min_assoc, foldl_min_init f ms a (min c (f m))]

theorem le_foldl_max (f : M → XInt) (ms : List M) (c : XInt) :
    c ≤ List.foldl (fun x m => max x (f m)) c ms := by
  have h := foldl_max_init f ms c ⊥
  rw [max_eq_left bot_le] at h
  rw [h]
  exact le_max_left _ _

theorem foldl_min_le (f : M → XInt) (ms : List M) (c : XInt) :
    List.foldl (fun x m => min x (f m)) c ms ≤ c := by
  have h := foldl_min_init f ms c ⊤
  rw [min_eq_left le_top] at h
  rw [h]
  exact min_le_left _ _

/-!
### The push/pop discipline (board restoration)

Every `push` performed by the move loops is matched by exactly one `pop`
before control leaves the loop, on the normal path and on the cutoff
path alike, so the threaded board returned by `alphabeta` is the board
it was given.
-/

theorem abMax_board (R : Rules P M)
    (search : P → XInt → XInt → XInt × Option M × P)
    (hb : ∀ p a t, (search p a t).2.2 = p) :
    ∀ (ms : List M) (b : P) (al be best : XInt) (bm : Option M),
      (abMax R search b ms al be best bm).2.2 = b
  | [], _, _, _, _, _ => rfl
  | m :: rest, b, al, be, best, bm => by
      simp only [abMax]
      have h2 : R.pop (search (R.push b m) al be).2.2 = b := by
        rw [hb]
        exact R.pop_push b m
      rw [h2]
      split
      · rfl
      · exact abMax_board R search hb rest b _ _ _ _

theorem abMin_board (R : Rules P M)
    (search : P → XInt → XInt → XInt × Option M × P)
    (hb : ∀ p a t, (search p a t).2.2 = p) :
    ∀ (ms : List M) (b : P) (al be best : XInt) (bm : Option M),
      (abMin R search b ms al be best bm).2.2 = b
  | [], _, _, _, _, _ => rfl
  | m :: rest, b, al, be, best, bm => by
      simp only [abMin]
      have h2 : R.pop (search (R.push b m) al be).2.2 = b := by
        rw [hb]
        exact R.pop_push b m
      rw [h2]
      split
      · rfl
      · exact abMin_board R search hb rest b _ _ _ _

theorem alphabeta_board (R : Rules P M) :
    ∀ (d : Nat) (b : P) (al be : XInt) (mx : Bool),
      (alphabeta R d b al be mx).2.2 = b
  | 0, _, _, _, _ => rfl
  | d + 1, b, al, be, mx => by
      simp only [alphabeta]
      split
      · rfl
      · split
        · exact abMax_board R _ (fun p a t => alphabeta_board R d p a t false)
            _ b al be ⊥ none
        · exact abMin_board R _ (fun p a t => alphabeta_board R d p a t true)
            _ b al be ⊤ none

/-!
### Pruning correctness

The classic window argument: clamped to the `(alpha, beta)` window, the
score computed by the pruning loops agrees with the corresponding
unpruned fold of the children's true values.  At the full window the
clamp is the identity, giving score equality with `minimax`.
-/

theorem abMax_clamp (R : Rules P M)
    (search : P → XInt → XInt → XInt × Option M × P) (w : P → XInt)
    (hb : ∀ p a t, (search p a t).2.2 = p)
    (hc : ∀ p a t, a < t →
      min t (max a (search p a t).1) = min t (max a (w p))) :
    ∀ (ms : List M) (b : P) (al be best : XInt) (bm : Option M),
      max al best < be →
      min be (max al (abMax R search b ms (max al best) be best bm).1)
        = min be (max al (List.foldl (fun x m => max x (w (R.push b m))) best ms))
  | [], _, _, _, _, _, _ => by
      simp only [abMax, List.foldl_nil]
  | m :: rest, b, al, be, best, bm, h => by
      have hboard : R.pop (search (R.push b m) (max al best) be).2.2 = b := by
        rw [hb]
        exact R.pop_push b m
      have hchild := hc (R.push b m) (max al best) be h
      simp only [abMax, List.foldl_cons]
      set s := (search (R.push b m) (max al best) be).1 with hsdef
      rw [hboard, if_lt_max]
      by_cases hcut : be ≤ max (max al best) s
      · rw [if_pos hcut]
        dsimp only
        have hbs : be ≤ s := le_max_right_of_lt hcut h
        have hL : be ≤ max al (max best s) :=
          le_trans hbs (le_trans (le_max_right best s) (le_max_right al (max best s)))
        have hwc : be ≤ w (R.push b m) := by
          have h1 : min be (max (max al best) s) = be := min_eq_left hcut
          rw [h1] at hchild
          have h2 : be ≤ max (max al best) (w (R.push b m)) :=
            hchild.le.trans (min_le_right _ _)
          exact le_max_right_of_lt h2 h
        have hbK : max best (w (R.push b m))
            ≤ List.foldl (fun x m2 => max x (w (R.push b m2)))
                (max best (w (R.push b m))) rest :=
          le_foldl_max _ rest _
        have hR : be ≤ max al (List.foldl (fun x m2 => max x (w (R.push b m2)))
            (max best (w (R.push b m))) rest) :=
          le_trans hwc (le_trans (le_max_right best _)
            (le_trans hbK (le_max_right al _)))
        rw [min_eq_left hL, min_eq_left hR]
      · rw [if_neg hcut]
        have hlt : max (max al best) s < be := not_le.mp hcut
        rw [max_assoc] at hlt
        rw [max_assoc al best s]
        have IH := abMax_clamp R search w hb hc rest b al be (max best s)
          (if best < s then some m else bm) hlt
        rw [IH]
        rw [max_comm best s, max_comm best (w (R.push b m))]
        rw [foldl_max_init, foldl_max_init]
        rw [clamp_max_split al be s
              (List.foldl (fun x m2 => max x (w (R.push b m2))) best rest),
            clamp_max_split al be (w (R.push b m))
              (List.foldl (fun x m2 => max x (w (R.push b m2))) best rest)]
        have hbK : best ≤ List.foldl (fun x m2 => max x (w (R.push b m2))) best rest :=
          le_foldl_max _ rest best
        have hBK : min be best
            ≤ min be (max al (List.foldl (fun x m2 => max x (w (R.push b m2))) best rest)) :=
          min_le_min (le_refl be) (le_trans hbK (le_max_right al _))
        have hEq : max (min be (max al s)) (min be best)
            = max (min be (max al (w (R.push b m)))) (min be best) := by
          rw [← clamp_shift, ← clamp_shift]
          exact hchild
        exact max_transfer hBK hEq

theorem abMin_clamp (R : Rules P M)
    (search : P → XInt → XInt → XInt × Option M × P) (w : P → XInt)
    (hb : ∀ p a t, (search p a t).2.2 = p)
    (hc : ∀ p a t, a < t →
      min t (max a (search p a t).1) = min t (max a (w p))) :
    ∀ (ms : List M) (b : P) (al be best : XInt) (bm : Option M),
      al < min be best →
      min be (max al (abMin R search b ms al (min be best) best bm).1)
        = min be (max al (List.foldl (fun x m => min x (w (R.push b m))) best ms))
  | [], _, _, _, _, _, _ => by
      simp only [abMin, List.foldl_nil]
  | m :: rest, b, al, be, best, bm, h => by
      have hboard : R.pop (search (R.push b m) al (min be best)).2.2 = b := by
        rw [hb]
        exact R.pop_push b m
      have hchild := hc (R.push b m) al (min be best) h
      have halbe : al ≤ be := le_trans h.le (min_le_left be best)
      simp only [abMin, List.foldl_cons]
      set s := (search (R.push b m) al (min be best)).1 with hsdef
      rw [hboard, if_lt_min]
      by_cases hcut : min (min be best) s ≤ al
      · rw [if_pos hcut]
        dsimp only
        have hsa : s ≤ al := min_le_left_of_lt hcut h
        have hwc : w (R.push b m) ≤ al := by
          have h1 : min (min be best) (max al s) = al := by
            rw [max_eq_left hsa]
            exact min_eq_right h.le
          rw [h1] at hchild
          rcases min_cases (min be best) (max al (w (R.push b m))) with
            ⟨he, _⟩ | ⟨he, _⟩
          · rw [he] at hchild
            exact absurd hchild.symm (ne_of_gt h)
          · rw [he] at hchild
            exact max_eq_left_iff.mp hchild.symm
        have hfold : List.foldl (fun x m2 => min x (w (R.push b m2)))
            (min best (w (R.push b m))) rest ≤ al :=
          le_trans (foldl_min_le _ rest _)
            (le_trans (min_le_right best _) hwc)
        rw [max_eq_left (le_trans (min_le_right best s) hsa),
            max_eq_left hfold, min_eq_right halbe]
      · rw [if_neg hcut]
        have hlt : al < min (min be best) s := not_le.mp hcut
        rw [min_assoc] at hlt
        rw [min_assoc be best s]
        have IH := abMin_clamp R search w hb hc rest b al be (min best s)
          (if s < best then some m else bm) hlt
        rw [IH]
        rw [min_comm best s, min_comm best (w (R.push b m))]
        rw [foldl_min_init, foldl_min_init]
        rw [clamp_min_split al be s
              (List.foldl (fun x m2 => min x (w (R.push b m2))) best rest),
            clamp_min_split al be (w (R.push b m))
              (List.foldl (fun x m2 => min x (w (R.push b m2))) best rest)]
        have hbK : List.foldl (fun x m2 => min x (w (R.push b m2))) best rest ≤ best :=
          foldl_min_le _ rest best
        have hKB : min be (max al (List.foldl (fun x m2 => min x (w (R.push b m2))) best rest))
            ≤ max al best :=
          le_trans (min_le_right be _) (max_le_max (le_refl al) hbK)
        have hEq : min (min be (max al s)) (max al best)
            = min (min be (max al (w (R.push b m)))) (max al best) := by
          rw [← clamp_shift_dual h.le, ← clamp_shift_dual h.le]
          exact hchild
        exact min_transfer hKB hEq

theorem alphabeta_clamp (R : Rules P M) :
    ∀ (d : Nat) (b : P) (al be : XInt) (mx : Bool), al < be →
      min be (max al (alphabeta R d b al be mx).1)
        = min be (max al (minimax R d b mx))
  | 0, _, _, _, _, _ => rfl
  | d + 1, b, al, be, mx, h => by
      simp only [alphabeta, minimax]
      split
      · rfl
      · cases mx with
        | true =>
            simp only [if_pos rfl]
            have H := abMax_clamp R (fun p a t => alphabeta R d p a t false)
              (fun p => minimax R d p false)
              (fun p a t => alphabeta_board R d p a t false)
              (fun p a t hat => alphabeta_clamp R d p a t false hat)
              (orderMoves R b (R.legal_moves b)) b al be ⊥ none
            rw [max_eq_left bot_le] at H
            exact H h
        | false =>
            simp only [Bool.false_eq_true, if_neg, ite_false]
            have H := abMin_clamp R (fun p a t => alphabeta R d p a t true)
              (fun p => minimax R d p true)
              (fun p a t => alphabeta_board R d p a t true)
              (fun p a t hat => alphabeta_clamp R d p a t true hat)
              (orderMoves R b (R.legal_moves b)) b al be ⊤ none
            rw [min_eq_left le_top] at H
            exact H h

/-!
### Move ordering: stable partition

The stable sort by the binary capture key used at every expanded node is
exactly the stable partition: all captures first, both groups in
enumeration order.
-/

theorem insertByKey_cap (R : Rules P M) (b : P) (m : M)
    (hm : R.is_capture b m = true) (l : List M) :
    insertByKey R b m l = m :: l := by
  cases l with
  | nil => rfl
  | cons x xs =>
      simp only [insertByKey]
      rw [if_pos (by simp [captureKey, hm])]

theorem insertByKey_skip_caps (R : Rules P M) (b : P) (m : M)
    (hm : R.is_capture b m = false) :
    ∀ (A B : List M), (∀ a ∈ A, R.is_capture b a = true) →
      insertByKey R b m (A ++ B) = A ++ insertByKey R b m B
  | [], _, _ => rfl
  | a :: A, B, hA => by
      have hkey : ¬ (captureKey R b m ≤ captureKey R b a) := by
        simp [captureKey, hm, hA a (List.mem_cons_self a A)]
      simp only [List.cons_append, insertByKey, if_neg hkey]
      exact congrArg (List.cons a)
        (insertByKey_skip_caps R b m hm A B
          (fun x hx => hA x (List.mem_cons_of_mem a hx)))

theorem insertByKey_front_noncaps (R : Rules P M) (b : P) (m : M)
    (hm : R.is_capture b m = false) :
    ∀ (B : List M), (∀ x ∈ B, R.is_capture b x = false) →
      insertByKey R b m B = m :: B
  | [], _ => rfl
  | x :: B, hB => by
      have hkey : captureKey R b m ≤ captureKey R b x := by
        simp [captureKey, hm, hB x (List.mem_cons_self x B)]
      simp only [insertByKey, if_pos hkey]

theorem orderMoves_partition (R : Rules P M) (b : P) :
    ∀ l : List M,
      orderMoves R b l
        = l.filter (fun m => R.is_capture b m)
            ++ l.filter (fun m => !(R.is_capture b m))
  | [] => rfl
  | m :: l => by
      cases hm : R.is_capture b m with
      | true =>
          simp only [orderMoves]
          rw [orderMoves_partition R b l, insertByKey_cap R b m hm]
          simp [List.filter_cons, hm]
      | false =>
          simp only [orderMoves]
          rw [orderMoves_partition R b l,
              insertByKey_skip_caps R b m hm _ _
                (fun x hx => by simpa using (List.mem_filter.mp hx).2),
              insertByKey_front_noncaps R b m hm _
                (fun x hx => by simpa using (List.mem_filter.mp hx).2)]
          simp [List.filter_cons, hm]

/-!
### Liveness of the move loops

With the collaborator contract in force, every recursive score is a
finite integer, so the first move examined at any expanded node is
recorded as the running best before any cutoff can end the loop.
-/

theorem ofInt_ne_bot (n : ℤ) : XInt.ofInt n ≠ ⊥ := WithBot.coe_ne_bot

theorem ofInt_ne_top (n : ℤ) : XInt.ofInt n ≠ ⊤ := by
  intro hcon
  rw [XInt.ofInt, ← WithBot.coe_top, WithBot.coe_inj] at hcon
  exact WithTop.coe_ne_top hcon

theorem insertByKey_length (R : Rules P M) (b : P) (m : M) :
    ∀ l : List M, (insertByKey R b m l).length = l.length + 1
  | [] => rfl
  | x :: xs => by
      simp only [insertByKey]
      split
      · rfl
      · simp only [List.length_cons, insertByKey_length R b m xs]

theorem orderMoves_length (R : Rules P M) (b : P) :
    ∀ l : List M, (orderMoves R b l).length = l.length
  | [] => rfl
  | m :: l => by
      simp only [orderMoves, List.length_cons, insertByKey_length,
        orderMoves_length R b l]

theorem orderMoves_ne_nil (R : Rules P M) (b : P) (l : List M) (h : l ≠ []) :
    orderMoves R b l ≠ [] := by
  intro hcon
  apply h
  have := orderMoves_length R b l
  rw [hcon] at this
  exact List.length_eq_zero.mp this.symm

theorem abMax_ne (R : Rules P M)
    (search : P → XInt → XInt → XInt × Option M × P)
    (hs : ∀ p a t, (search p a t).1 ≠ ⊥ ∧ (search p a t).1 ≠ ⊤) :
    ∀ (ms : List M) (b : P) (al be best : XInt) (bm : Option M),
      best ≠ ⊤ → (ms ≠ [] ∨ best ≠ ⊥) →
      (abMax R search b ms al be best bm).1 ≠ ⊥
        ∧ (abMax R search b ms al be best bm).1 ≠ ⊤
  | [], b, al, be, best, bm, ht, hd => by
      simp only [abMax]
      exact ⟨hd.resolve_left (fun hcon => hcon rfl), ht⟩
  | m :: rest, b, al, be, best, bm, ht, _ => by
      simp only [abMax, if_lt_max]
      have hsb := (hs (R.push b m) al be).1
      have hst := (hs (R.push b m) al be).2
      have h2t : max best (search (R.push b m) al be).1 ≠ ⊤ := by
        rcases max_choice best (search (R.push b m) al be).1 with he | he <;>
          rw [he] <;> assumption
      have h2b : max best (search (R.push b m) al be).1 ≠ ⊥ := by
        intro hcon
        exact hsb (eq_bot_mono (le_max_right best _) hcon)
      split
      · exact ⟨h2b, h2t⟩
      · exact abMax_ne R search hs rest _ _ _ _ _ h2t (Or.inr h2b)

theorem abMin_ne (R : Rules P M)
    (search : P → XInt → XInt → XInt × Option M × P)
    (hs : ∀ p a t, (search p a t).1 ≠ ⊥ ∧ (search p a t).1 ≠ ⊤) :
    ∀ (ms : List M) (b : P) (al be best : XInt) (bm : Option M),
      best ≠ ⊥ → (ms ≠ [] ∨ best ≠ ⊤) →
      (abMin R search b ms al be best bm).1 ≠ ⊥
        ∧ (abMin R search b ms al be best bm).1 ≠ ⊤
  | [], b, al, be, best, bm, hb2, hd => by
      simp only [abMin]
      exact ⟨hb2, hd.resolve_left (fun hcon => hcon rfl)⟩
  | m :: rest, b, al, be, best, bm, hb2, _ => by
      simp only [abMin, if_lt_min]
      have hsb := (hs (R.push b m) al be).1
      have hst := (hs (R.push b m) al be).2
      have h2b : min best (search (R.push b m) al be).1 ≠ ⊥ := by
        rcases min_choice best (search (R.push b m) al be).1 with he | he <;>
          rw [he] <;> assumption
      have h2t : min best (search (R.push b m) al be).1 ≠ ⊤ := by
        intro hcon
        exact hst (top_le_iff.mp (hcon ▸ min_le_right best _))
      split
      · exact ⟨h2b, h2t⟩
      · exact abMin_ne R search hs rest _ _ _ _ _ h2b (Or.inr h2t)

theorem alphabeta_ne (R : Rules P M) :
    ∀ (d : Nat) (b : P) (al be : XInt) (mx : Bool),
      (alphabeta R d b al be mx).1 ≠ ⊥ ∧ (alphabeta R d b al be mx).1 ≠ ⊤
  | 0, b, _, _, _ => ⟨ofInt_ne_bot _, ofInt_ne_top _⟩
  | d + 1, b, al, be, mx => by
      simp only [alphabeta]
      split
      · exact ⟨ofInt_ne_bot _, ofInt_ne_top _⟩
      case isFalse hov =>
        have hov2 : R.is_game_over b = false := by
          simpa using hov
        have hmv : orderMoves R b (R.legal_moves b) ≠ [] :=
          orderMoves_ne_nil R b _ (R.not_over_moves b hov2)
        split
        · exact abMax_ne R _ (fun p a t => alphabeta_ne R d p a t false)
            _ b al be ⊥ none bot_ne_top (Or.inl hmv)
        · exact abMin_ne R _ (fun p a t => alphabeta_ne R d p a t true)
            _ b al be ⊤ none top_ne_bot (Or.inl hmv)

theorem abMax_keep_some (R : Rules P M)
    (search : P → XInt → XInt → XInt × Option M × P) :
    ∀ (ms : List M) (b : P) (al be best : XInt) (bm : Option M),
      bm ≠ none → (abMax R search b ms al be best bm).2.1 ≠ none
  | [], _, _, _, _, bm, hbm => hbm
  | m :: rest, b, al, be, best, bm, hbm => by
      simp only [abMax]
      split
      · dsimp only
        split
        · exact Option.some_ne_none m
        · exact hbm
      · exact abMax_keep_some R search rest _ _ _ _ _
          (by split
              · exact Option.some_ne_none m
              · exact hbm)

theorem abMin_keep_some (R : Rules P M)
    (search : P → XInt → XInt → XInt × Option M × P) :
    ∀ (ms : List M) (b : P) (al be best : XInt) (bm : Option M),
      bm ≠ none → (abMin R search b ms al be best bm).2.1 ≠ none
  | [], _, _, _, _, bm, hbm => hbm
  | m :: rest, b, al, be, best, bm, hbm => by
      simp only [abMin]
      split
      · dsimp only
        split
        · exact Option.some_ne_none m
        · exact hbm
      · exact abMin_keep_some R search rest _ _ _ _ _
          (by split
              · exact Option.some_ne_none m
              · exact hbm)

theorem abMax_first_some (R : Rules P M)
    (search : P → XInt → XInt → XInt × Option M × P)
    (hs : ∀ p a t, (search p a t).1 ≠ ⊥) :
    ∀ (ms : List M) (b : P) (al be : XInt),
      ms ≠ [] → (abMax R search b ms al be ⊥ none).2.1 ≠ none
  | [], _, _, _, h => absurd rfl h
  | m :: rest, b, al, be, _ => by
      simp only [abMax]
      have hlt : (⊥ : XInt) < (search (R.push b m) al be).1 :=
        bot_lt_iff_ne_bot.mpr (hs (R.push b m) al be)
      simp only [if_pos hlt]
      split
      · exact Option.some_ne_none m
      · exact abMax_keep_some R search rest _ _ _ _ _ (Option.some_ne_none m)

theorem abMin_first_some (R : Rules P M)
    (search : P → XInt → XInt → XInt × Option M × P)
    (hs : ∀ p a t, (search p a t).1 ≠ ⊤) :
    ∀ (ms : List M) (b : P) (al be : XInt),
      ms ≠ [] → (abMin R search b ms al be ⊤ none).2.1 ≠ none
  | [], _, _, _, h => absurd rfl h
  | m :: rest, b, al, be, _ => by
      simp only [abMin]
      have hlt : (search (R.push b m) al be).1 < (⊤ : XInt) :=
        lt_top_iff_ne_top.mpr (hs (R.push b m) al be)
      simp only [if_pos hlt]
      split
      · exact Option.some_ne_none m
      · exact abMin_keep_some R search rest _ _ _ _ _ (Option.some_ne_none m)

/-!
### The claims
-/

/-- C1.  For every position and every non-negative depth, the search
invoked with the full window (`alpha = -inf`, `beta = +inf`) returns the
same Score as the exhaustive, unpruned minimax of the same depth with the
same move ordering and leaf evaluation: pruning never changes the
returned Score. -/
theorem alphabeta_fullWindow_eq_minimax (R : Rules P M) (d : Nat) (b : P)
    (mx : Bool) :
    (alphabeta R d b ⊥ ⊤ mx).1 = minimax R d b mx := by
  have e1 : ∀ x : XInt, min ⊤ (max ⊥ x) = x := fun x => by
    rw [max_eq_right bot_le, min_eq_right le_top]
  have h := alphabeta_clamp R d b ⊥ ⊤ mx bot_lt_top
  rw [e1, e1] at h
  exact h

/-- C2.  After any call to the search returns — by normal return, by a
pruning cutoff, or by the terminal short-circuit — the position supplied
by the caller is identical to the position before the call: every `push`
during recursion is matched by exactly one `pop` on every exit path. -/
theorem alphabeta_restores_board (R : Rules P M) (d : Nat) (b : P)
    (al be : XInt) (mx : Bool) :
    (alphabeta R d b al be mx).2.2 = b :=
  alphabeta_board R d b al be mx

/-- C3.  `select_move` performs no validation of the requested depth: a
non-positive depth is not rejected at the entry point; depth `0` flows
straight into the searcher, which treats the root as a leaf and returns
the static evaluation with no move.  (A negative Python depth would
recurse past zero without ever hitting the `depth == 0` base case.) -/
theorem select_move_depth_zero_not_rejected (R : Rules P M) (b : P) :
    select_move R b 0 = (none, XInt.ofInt (evaluate_board R b).1) := rfl

/-- C4.  On a checkmate position, for any depth, `select_move` returns no
move together with the extreme score `-999999` when White (the
globally-maximizing side) is the side to move, `+999999` otherwise. -/
theorem select_move_checkmate (R : Rules P M) (b : P) (d : Nat)
    (h : R.is_checkmate b = true) :
    select_move R b d
      = (none, XInt.ofInt (if R.turn b then -999999 else 999999)) := by
  have hover := R.mate_over b h
  cases d with
  | zero => simp [select_move, alphabeta, evaluate_board, h]
  | succ d => simp [select_move, alphabeta, hover, evaluate_board, h]

theorem select_move_checkmate_witness :
    chessRules.is_checkmate foolsMatePos = true
      ∧ select_move chessRules foolsMatePos 2 = (none, XInt.ofInt (-999999)) := by
  refine ⟨by decide, ?_⟩
  rw [select_move_checkmate chessRules foolsMatePos 2 (by decide)]
  decide

/-- C5.  On a stalemate position, for any depth, `select_move` returns no
move and the exact score `0`: the stalemate check in the evaluator
short-circuits all material, positional and mobility scoring. -/
theorem select_move_stalemate (R : Rules P M) (b : P) (d : Nat)
    (h : R.is_stalemate b = true) :
    select_move R b d = (none, XInt.ofInt 0) := by
  have hover := R.stale_over b h
  have hm := R.stale_not_mate b h
  cases d with
  | zero => simp [select_move, alphabeta, evaluate_board, h, hm]
  | succ d => simp [select_move, alphabeta, hover, evaluate_board, h, hm]

theorem select_move_stalemate_witness :
    chessRules.is_stalemate stalePos = true
      ∧ select_move chessRules stalePos 3 = (none, XInt.ofInt 0) := by
  refine ⟨by decide, ?_⟩
  rw [select_move_stalemate chessRules stalePos 3 (by decide)]

/-- C6.  On the standard starting position the evaluator returns exactly
`0`: the material difference is `0`, the piece-square difference (with
mirrored indexing for Black) is `0`, and the two sides' legal-move counts
are equal so the mobility term vanishes. -/
theorem evaluate_start_zero :
    (evaluate_board chessRules startPos).1 = 0
      ∧ (evalTables chessRules startPos).1 = 0
      ∧ (evalTables chessRules startPos).2 = 0
      ∧ (chessRules.legal_moves (chessRules.set_turn startPos true)).length
          = (chessRules.legal_moves (chessRules.set_turn startPos false)).length :=
  ⟨by decide, by decide, by decide, by decide⟩

/-- C7.  The evaluator has no observable side effect on its input: the
position state it hands back is the position it was given, on the
checkmate branch, the stalemate branch, and the full-sum branch alike
(the transient turn-flips for mobility counting happen on a copy). -/
theorem evaluate_board_no_side_effect (R : Rules P M) (b : P) :
    (evaluate_board R b).2 = b := by
  unfold evaluate_board
  split
  · rfl
  · split
    · rfl
    · rfl

/-- C8.  At every node the searcher expands, the legal-move list is
reordered as a stable partition: every capturing move strictly before
every non-capturing move, each group keeping the rules engine's
enumeration order. -/
theorem searcher_moves_stable_partition (R : Rules P M) (b : P) :
    orderMoves R b (R.legal_moves b)
      = (R.legal_moves b).filter (fun m => R.is_capture b m)
          ++ (R.legal_moves b).filter (fun m => !(R.is_capture b m)) :=
  orderMoves_partition R b (R.legal_moves b)

/-- C9.  On a non-terminal position, at any depth at least 1,
`select_move` returns some move: the first legal move examined is
recorded as the running best before any cutoff can abandon the loop. -/
theorem select_move_some_of_not_over (R : Rules P M) (b : P) (d : Nat)
    (hd : 1 ≤ d) (h : R.is_game_over b = false) :
    (select_move R b d).1 ≠ none := by
  obtain ⟨e, rfl⟩ : ∃ e, d = e + 1 := ⟨d - 1, by omega⟩
  show (alphabeta R (e + 1) b ⊥ ⊤ (R.turn b)).2.1 ≠ none
  simp only [alphabeta]
  rw [if_neg (by rw [h]; exact Bool.false_ne_true)]
  have hmv := orderMoves_ne_nil R b _ (R.not_over_moves b h)
  cases R.turn b with
  | true =>
      rw [if_pos rfl]
      exact abMax_first_some R _
        (fun p a t => (alphabeta_ne R e p a t false).1) _ b ⊥ ⊤ hmv
  | false =>
      rw [if_neg Bool.false_ne_true]
      exact abMin_first_some R _
        (fun p a t => (alphabeta_ne R e p a t true).2) _ b ⊥ ⊤ hmv

theorem select_move_some_of_not_over_witness :
    (1 ≤ 1) ∧ chessRules.is_game_over startPos = false
      ∧ (select_move chessRules startPos 1).1 ≠ none :=
  ⟨le_refl 1, by decide,
    select_move_some_of_not_over chessRules startPos 1 (le_refl 1) (by decide)⟩

/-- C10 (counterexample).  King against king is game over by insufficient
material, is neither checkmate nor stalemate, and yet the evaluator
returns exactly `0` there — refuting the claim that the evaluator never
returns `0` on such terminal positions. -/
theorem evaluate_other_terminal_zero_cex :
    chessRules.is_game_over kvkPos = true
      ∧ chessRules.is_checkmate kvkPos = false
      ∧ chessRules.is_stalemate kvkPos = false
      ∧ (evaluate_board chessRules kvkPos).1 = 0 :=
  ⟨by decide, by decide, by decide, by decide⟩

/-- C10 (amended).  On a position that is game over by a terminal
condition other than checkmate or stalemate, the evaluator is not
short-circuited: it falls through to the full
material + positional + mobility sum (whose value may incidentally be
any integer, including `0`), and the search returns that static score
with no move at such a terminal leaf. -/
theorem alphabeta_other_terminal_static (R : Rules P M) (b : P) (d : Nat)
    (al be : XInt) (mx : Bool) (hover : R.is_game_over b = true)
    (hm : R.is_checkmate b = false) (hs : R.is_stalemate b = false) :
    (evaluate_board R b).1 = evaluate_sum R b
      ∧ alphabeta R d b al be mx = (XInt.ofInt (evaluate_sum R b), none, b) := by
  have he : (evaluate_board R b).1 = evaluate_sum R b := by
    simp [evaluate_board, hm, hs]
  refine ⟨he, ?_⟩
  cases d with
  | zero => simp [alphabeta, he]
  | succ d => simp [alphabeta, hover, he]

theorem alphabeta_other_terminal_static_witness :
    chessRules.is_game_over kvkPos = true
      ∧ chessRules.is_checkmate kvkPos = false
      ∧ chessRules.is_stalemate kvkPos = false
      ∧ ((evaluate_board chessRules kvkPos).1 = evaluate_sum chessRules kvkPos
          ∧ alphabeta chessRules 3 kvkPos ⊥ ⊤ true
              = (XInt.ofInt (evaluate_sum chessRules kvkPos), none, kvkPos)) :=
  ⟨by decide, by decide, by decide,
    alphabeta_other_terminal_static chessRules kvkPos 3 ⊥ ⊤ true
      (by decide) (by decide) (by decide)⟩
